import Mathlib

/-!
Shallow embedding of the `bresenham` crate (`src/lib.rs`): an iterator-based
Bresenham line-drawing algorithm.  Machine-sized signed integers (`isize`)
are modelled as `Int`; overflow is an explicit non-goal of the crate, so the
unbounded model is the intended semantics.  The lazy iterators are modelled
as fuel-indexed list producers driven by the embedded `next` functions, with
the exact fuel needed by the loop supplied at the top level.
-/

/-- `pub type Point = (isize, isize);` -/
abbrev Point : Type := Int × Int

/-- The octant tag (`struct Octant(u8)`), modelled as the stored `u8` value. -/
abbrev Octant : Type := Nat

/-- `Octant::from_points`: computes the octant tag from the raw deltas,
mirroring the three sequential mutations of the Rust source. -/
def Octant.from_points (s e : Point) : Octant :=
  let dx0 : Int := e.1 - s.1
  let dy0 : Int := e.2 - s.2
  let dx1 : Int := if dy0 < 0 then -dx0 else dx0
  let dy1 : Int := if dy0 < 0 then -dy0 else dy0
  let o1 : Nat := if dy0 < 0 then 4 else 0
  let dx2 : Int := if dx1 < 0 then dy1 else dx1
  let dy2 : Int := if dx1 < 0 then -dx1 else dy1
  let o2 : Nat := if dx1 < 0 then o1 + 2 else o1
  if dx2 < dy2 then o2 + 1 else o2

/-- `Octant::to_octant0`: forward transform into the canonical octant.
The Rust `_ => unreachable!()` arm is modelled as the identity; it is proved
never to be reached for tags produced by `Octant.from_points`. -/
def Octant.to_octant0 (t : Octant) (p : Point) : Point :=
  match t with
  | 0 => (p.1, p.2)
  | 1 => (p.2, p.1)
  | 2 => (p.2, -p.1)
  | 3 => (-p.1, p.2)
  | 4 => (-p.1, -p.2)
  | 5 => (-p.2, -p.1)
  | 6 => (-p.2, p.1)
  | 7 => (p.1, -p.2)
  | _ => p

/-- `Octant::from_octant0`: inverse transform out of the canonical octant.
The Rust `_ => unreachable!()` arm is modelled as the identity; it is proved
never to be reached for tags produced by `Octant.from_points`. -/
def Octant.from_octant0 (t : Octant) (p : Point) : Point :=
  match t with
  | 0 => (p.1, p.2)
  | 1 => (p.2, p.1)
  | 2 => (-p.2, p.1)
  | 3 => (-p.1, p.2)
  | 4 => (-p.1, -p.2)
  | 5 => (-p.2, -p.1)
  | 6 => (p.2, -p.1)
  | 7 => (p.1, -p.2)
  | _ => p

/-- `pub struct Bresenham`: the walker state. -/
structure Bresenham where
  x : Int
  y : Int
  dx : Int
  dy : Int
  x1 : Int
  diff : Int
  octant : Octant
deriving DecidableEq

/-- `Bresenham::new`: computes the octant from the original points,
transforms both endpoints into canonical space and initialises the state. -/
def Bresenham.new (s e : Point) : Bresenham :=
  let octant := Octant.from_points s e
  let s' := octant.to_octant0 s
  let e' := octant.to_octant0 e
  let dx := e'.1 - s'.1
  let dy := e'.2 - s'.2
  { x := s'.1, y := s'.2, dx := dx, dy := dy, x1 := e'.1,
    diff := dy - dx, octant := octant }

/-- `Bresenham::advance`: emit the current canonical point (mapped back
through the inverse transform) and step the state, in the source's order. -/
def Bresenham.advance (b : Bresenham) : Point × Bresenham :=
  let p : Point := (b.x, b.y)
  let b1 := if b.diff ≥ 0 then { b with y := b.y + 1, diff := b.diff - b.dx } else b
  let b2 := { b1 with diff := b1.diff + b1.dy }
  let b3 := { b2 with x := b2.x + 1 }
  (b.octant.from_octant0 p, b3)

/-- `impl Iterator for Bresenham`: stop once canonical `x` reaches `x1`. -/
def Bresenham.next (b : Bresenham) : Option (Point × Bresenham) :=
  if b.x ≥ b.x1 then none else some b.advance

/-- `pub struct BresenhamInclusive(Bresenham);` -/
structure BresenhamInclusive where
  inner : Bresenham
deriving DecidableEq

/-- `BresenhamInclusive::new`. -/
def BresenhamInclusive.new (s e : Point) : BresenhamInclusive :=
  ⟨Bresenham.new s e⟩

/-- `BresenhamInclusive::advance`: delegates to the wrapped walker. -/
def BresenhamInclusive.advance (b : BresenhamInclusive) : Point × BresenhamInclusive :=
  let r := b.inner.advance
  (r.1, ⟨r.2⟩)

/-- `impl Iterator for BresenhamInclusive`: stop once canonical `x` passes `x1`. -/
def BresenhamInclusive.next (b : BresenhamInclusive) : Option (Point × BresenhamInclusive) :=
  if b.inner.x > b.inner.x1 then none else some b.advance

/-- Collect the points an exclusive walker yields, driven by
`Bresenham.next`, with fuel bounding the number of iterations. -/
def exWalkF : Nat → Bresenham → List Point
  | 0, _ => []
  | Nat.succ n, b =>
    match b.next with
    | none => []
    | some (p, b') => p :: exWalkF n b'

/-- Collect the points an inclusive walker yields, driven by
`BresenhamInclusive.next`, with fuel bounding the number of iterations. -/
def inWalkF : Nat → BresenhamInclusive → List Point
  | 0, _ => []
  | Nat.succ n, b =>
    match b.next with
    | none => []
    | some (p, b') => p :: inWalkF n b'

/-- The full sequence produced by iterating `Bresenham::new(s, e)`:
the loop runs exactly `x1 - x` times, which is the fuel supplied. -/
def exclusive_walk (s e : Point) : List Point :=
  let b := Bresenham.new s e
  exWalkF (b.x1 - b.x).toNat b

/-- The full sequence produced by iterating `BresenhamInclusive::new(s, e)`:
the loop runs exactly `x1 - x + 1` times, which is the fuel supplied. -/
def inclusive_walk (s e : Point) : List Point :=
  let b := Bresenham.new s e
  inWalkF ((b.x1 - b.x).toNat + 1) ⟨b⟩

/-- Iterated `advance`: the state after `n` unchecked advance calls. -/
def Bresenham.iterAdvance : Nat → Bresenham → Bresenham
  | 0, b => b
  | Nat.succ n, b => Bresenham.iterAdvance n b.advance.2

/-- Adjacency of two yielded points: the claim's 8-connectivity with no
repeated point. -/
def adjacent (p q : Point) : Prop :=
  |q.1 - p.1| ≤ 1 ∧ |q.2 - p.2| ≤ 1 ∧ p ≠ q

instance : DecidablePred fun pq : Point × Point => adjacent pq.1 pq.2 := by
  intro pq
  unfold adjacent
  infer_instance

/-- Membership in the axis-aligned bounding box spanned by `a` and `b`. -/
def inBox (p a b : Point) : Prop :=
  min a.1 b.1 ≤ p.1 ∧ p.1 ≤ max a.1 b.1 ∧ min a.2 b.2 ≤ p.2 ∧ p.2 ≤ max a.2 b.2

example : exclusive_walk (0, 1) (6, 4) =
    [(0, 1), (1, 1), (2, 2), (3, 2), (4, 3), (5, 3)] := by decide

example : inclusive_walk (6, 4) (0, 1) =
    [(6, 4), (5, 4), (4, 3), (3, 3), (2, 2), (1, 2), (0, 1)] := by decide

example : exclusive_walk (2, 3) (2, 6) = [(2, 3), (2, 4), (2, 5)] := by decide

/-! ### Effect of one `advance` call on the state fields -/

theorem advance_x (b : Bresenham) : b.advance.2.x = b.x + 1 := by
  unfold Bresenham.advance
  split <;> rfl

theorem advance_x1 (b : Bresenham) : b.advance.2.x1 = b.x1 := by
  unfold Bresenham.advance
  split <;> rfl

theorem advance_dx (b : Bresenham) : b.advance.2.dx = b.dx := by
  unfold Bresenham.advance
  split <;> rfl

theorem advance_dy (b : Bresenham) : b.advance.2.dy = b.dy := by
  unfold Bresenham.advance
  split <;> rfl

theorem advance_octant (b : Bresenham) : b.advance.2.octant = b.octant := by
  unfold Bresenham.advance
  split <;> rfl

theorem advance_fst (b : Bresenham) :
    b.advance.1 = b.octant.from_octant0 (b.x, b.y) := by
  unfold Bresenham.advance
  split <;> rfl

theorem advance_y_cases (b : Bresenham) :
    b.advance.2.y = b.y ∨ b.advance.2.y = b.y + 1 := by
  unfold Bresenham.advance
  split
  · exact Or.inr rfl
  · exact Or.inl rfl

/-! ### The octant normalizer -/

theorem from_points_le_seven (s e : Point) : Octant.from_points s e ≤ 7 := by
  simp only [Octant.from_points]
  split_ifs <;> decide

theorem octant_roundtrip_aux (t : Octant) (ht : t ≤ 7) (p : Point) :
    t.from_octant0 (t.to_octant0 p) = p := by
  interval_cases t <;>
    simp [Octant.to_octant0, Octant.from_octant0]

theorem octant_roundtrip_rev_aux (t : Octant) (ht : t ≤ 7) (p : Point) :
    t.to_octant0 (t.from_octant0 p) = p := by
  interval_cases t <;>
    simp [Octant.to_octant0, Octant.from_octant0]

/-- The canonical deltas produced by the normalizer: `dy` is non-negative,
at most `dx`, and `dx` is the Chebyshev distance of the original points. -/
theorem canonical_deltas (s e : Point) :
    0 ≤ (Octant.to_octant0 (Octant.from_points s e) e).2 -
        (Octant.to_octant0 (Octant.from_points s e) s).2 ∧
    (Octant.to_octant0 (Octant.from_points s e) e).2 -
        (Octant.to_octant0 (Octant.from_points s e) s).2 ≤
      (Octant.to_octant0 (Octant.from_points s e) e).1 -
        (Octant.to_octant0 (Octant.from_points s e) s).1 ∧
    ((Octant.to_octant0 (Octant.from_points s e) e).1 -
        (Octant.to_octant0 (Octant.from_points s e) s).1).toNat =
      max (e.1 - s.1).natAbs (e.2 - s.2).natAbs := by
  simp only [Octant.from_points]
  split_ifs <;>
    simp_all [Octant.to_octant0] <;> omega

/-! ### Canonical coordinates of the endpoints -/

/-- Canonical image of `start` under the forward transform chosen by `new`. -/
def canonStart (s e : Point) : Point := (Octant.from_points s e).to_octant0 s

/-- Canonical image of `end` under the forward transform chosen by `new`. -/
def canonEnd (s e : Point) : Point := (Octant.from_points s e).to_octant0 e

/-- Canonical delta along the sweep axis. -/
def canonDx (s e : Point) : Int := (canonEnd s e).1 - (canonStart s e).1

/-- Canonical delta along the minor axis. -/
def canonDy (s e : Point) : Int := (canonEnd s e).2 - (canonStart s e).2

theorem new_eq (s e : Point) :
    Bresenham.new s e =
      { x := (canonStart s e).1, y := (canonStart s e).2,
        dx := canonDx s e, dy := canonDy s e, x1 := (canonEnd s e).1,
        diff := canonDy s e - canonDx s e,
        octant := Octant.from_points s e } := rfl

theorem canonDy_nonneg (s e : Point) : 0 ≤ canonDy s e :=
  (canonical_deltas s e).1

theorem canonDy_le_canonDx (s e : Point) : canonDy s e ≤ canonDx s e :=
  (canonical_deltas s e).2.1

theorem canonDx_toNat (s e : Point) :
    (canonDx s e).toNat = max (e.1 - s.1).natAbs (e.2 - s.2).natAbs :=
  (canonical_deltas s e).2.2

theorem canonDx_pos (s e : Point) (hne : s ≠ e) : 1 ≤ canonDx s e := by
  have h := canonDx_toNat s e
  have hd := canonDy_le_canonDx s e
  have hd0 := canonDy_nonneg s e
  have : ¬(e.1 - s.1 = 0 ∧ e.2 - s.2 = 0) := by
    intro ⟨h1, h2⟩
    exact hne (Prod.ext (by omega) (by omega)).symm
  omega

theorem canonDx_zero_of_eq (s : Point) : canonDx s s = 0 := by
  have h := canonDx_toNat s s
  have hd := canonDy_le_canonDx s s
  have hd0 := canonDy_nonneg s s
  omega

/-! ### The walker-state invariant -/

/-- Invariant of the canonical walker state started at `(x0, y0)` with
canonical deltas `dx`, `dy` and octant `t`: the constant fields are intact,
`diff` has its closed form, and the minor-axis progress `b.y - y0` is the
floor of `(b.x - x0) * dy / dx`, phrased multiplicatively. -/
def StInv (x0 y0 dx dy : Int) (t : Octant) (b : Bresenham) : Prop :=
  b.dx = dx ∧ b.dy = dy ∧ b.x1 = x0 + dx ∧ b.octant = t ∧
  x0 ≤ b.x ∧
  b.diff = (b.x - x0 + 1) * dy - (b.y - y0 + 1) * dx ∧
  (b.y - y0) * dx ≤ (b.x - x0) * dy ∧
  (b.x - x0) * dy < (b.y - y0 + 1) * dx

theorem stInv_new (s e : Point) (hne : s ≠ e) :
    StInv (canonStart s e).1 (canonStart s e).2 (canonDx s e) (canonDy s e)
      (Octant.from_points s e) (Bresenham.new s e) := by
  have hdx := canonDx_pos s e hne
  rw [new_eq]
  unfold StInv
  dsimp only
  refine ⟨rfl, rfl, by unfold canonDx; omega, rfl, le_refl _, by ring, by simp, ?_⟩
  simpa using hdx

theorem stInv_advance {x0 y0 dx dy : Int} {t : Octant} {b : Bresenham}
    (hdy : 0 ≤ dy) (hdydx : dy ≤ dx) (h : StInv x0 y0 dx dy t b) :
    StInv x0 y0 dx dy t b.advance.2 := by
  obtain ⟨h1, h2, h3, h4, h5, h6, h7, h8⟩ := h
  by_cases hd : b.diff ≥ 0
  · simp only [Bresenham.advance, if_pos hd]
    subst h1 h2
    unfold StInv
    dsimp only
    refine ⟨rfl, rfl, h3, h4, by omega, by linarith [h6], ?_, ?_⟩
    · have hd' : 0 ≤ (b.x - x0 + 1) * b.dy - (b.y - y0 + 1) * b.dx := by
        rw [← h6]; exact hd
      nlinarith [hd']
    · nlinarith [h8, hdydx]
  · simp only [Bresenham.advance, if_neg hd]
    subst h1 h2
    push_neg at hd
    unfold StInv
    dsimp only
    refine ⟨rfl, rfl, h3, h4, by omega, by linarith [h6], ?_, ?_⟩
    · nlinarith [h7, hdy]
    · have hd' : (b.x - x0 + 1) * b.dy - (b.y - y0 + 1) * b.dx < 0 := by
        rw [← h6]; exact hd
      nlinarith [hd']

theorem stInv_terminal {x0 y0 dx dy : Int} {t : Octant} {b : Bresenham}
    (hdx : 1 ≤ dx) (h : StInv x0 y0 dx dy t b) (hx : b.x = x0 + dx) :
    b.y = y0 + dy := by
  obtain ⟨h1, h2, h3, h4, h5, h6, h7, h8⟩ := h
  rw [hx] at h7 h8
  have ha : dy < b.y - y0 + 1 := by
    refine lt_of_mul_lt_mul_right ?_ (by omega : (0 : Int) ≤ dx)
    calc dy * dx = (x0 + dx - x0) * dy := by ring
    _ < (b.y - y0 + 1) * dx := h8
  have hb : b.y - y0 ≤ dy := by
    refine le_of_mul_le_mul_right ?_ (by omega : (0 : Int) < dx)
    calc (b.y - y0) * dx ≤ (x0 + dx - x0) * dy := h7
    _ = dy * dx := by ring
  omega

/-! ### Unfolding the walk producers -/

theorem exWalkF_zero (b : Bresenham) : exWalkF 0 b = [] := rfl

theorem inWalkF_zero (b : BresenhamInclusive) : inWalkF 0 b = [] := rfl

theorem exWalkF_nil {n : Nat} {b : Bresenham} (h : b.x1 ≤ b.x) :
    exWalkF n b = [] := by
  cases n with
  | zero => rfl
  | succ n => simp [exWalkF, Bresenham.next, show b.x ≥ b.x1 from h]

theorem inWalkF_nil {n : Nat} {b : Bresenham} (h : b.x1 < b.x) :
    inWalkF n ⟨b⟩ = [] := by
  cases n with
  | zero => rfl
  | succ n => simp [inWalkF, BresenhamInclusive.next, show b.x > b.x1 from h]

theorem exWalkF_cons {n : Nat} {b : Bresenham} (h : b.x < b.x1) :
    exWalkF (n + 1) b = b.advance.1 :: exWalkF n b.advance.2 := by
  simp [exWalkF, Bresenham.next, show ¬b.x ≥ b.x1 by omega]

theorem inWalkF_cons {n : Nat} {b : Bresenham} (h : b.x ≤ b.x1) :
    inWalkF (n + 1) ⟨b⟩ =
      b.advance.1 :: inWalkF n ⟨b.advance.2⟩ := by
  simp [inWalkF, BresenhamInclusive.next, BresenhamInclusive.advance,
    show ¬b.x > b.x1 by omega]

theorem inWalkF_head {n : Nat} {b : Bresenham} (h : b.x ≤ b.x1) :
    (inWalkF (n + 1) ⟨b⟩).head? =
      some (b.octant.from_octant0 (b.x, b.y)) := by
  rw [inWalkF_cons h, advance_fst]
  rfl

theorem exWalkF_length (n : Nat) :
    ∀ b : Bresenham, (b.x1 - b.x).toNat ≤ n →
      (exWalkF n b).length = (b.x1 - b.x).toNat := by
  induction n with
  | zero =>
    intro b h
    simp [exWalkF]
    omega
  | succ n ih =>
    intro b h
    by_cases hc : b.x1 ≤ b.x
    · rw [exWalkF_nil hc]
      simp
      omega
    · push_neg at hc
      rw [exWalkF_cons hc]
      have hih := ih b.advance.2 (by rw [advance_x, advance_x1]; omega)
      simp only [List.length_cons, hih, advance_x, advance_x1]
      omega

theorem stInv_y_bounds {x0 y0 dx dy : Int} {t : Octant} {b : Bresenham}
    (hdx : 1 ≤ dx) (hdy : 0 ≤ dy) (h : StInv x0 y0 dx dy t b)
    (hxle : b.x ≤ x0 + dx) : y0 ≤ b.y ∧ b.y ≤ y0 + dy := by
  obtain ⟨h1, h2, h3, h4, h5, h6, h7, h8⟩ := h
  constructor
  · nlinarith [mul_nonneg (by omega : (0 : Int) ≤ b.x - x0) hdy, h8]
  · have hstep : (b.x - x0) * dy ≤ dx * dy :=
      mul_le_mul_of_nonneg_right (by omega) hdy
    have : b.y - y0 ≤ dy := by
      refine le_of_mul_le_mul_right ?_ (by omega : (0 : Int) < dx)
      calc (b.y - y0) * dx ≤ (b.x - x0) * dy := h7
      _ ≤ dx * dy := hstep
      _ = dy * dx := by ring
    omega

/-! ### The inclusive walk is the exclusive walk plus the canonical endpoint -/

theorem inWalkF_eq_exWalkF_append {x0 y0 dx dy : Int} {t : Octant}
    (hdx : 1 ≤ dx) (hdy : 0 ≤ dy) (hdydx : dy ≤ dx) :
    ∀ n : Nat, ∀ b : Bresenham, StInv x0 y0 dx dy t b →
      b.x ≤ x0 + dx → (x0 + dx - b.x).toNat ≤ n →
      inWalkF (n + 1) ⟨b⟩ =
        exWalkF n b ++ [t.from_octant0 (x0 + dx, y0 + dy)] := by
  intro n
  induction n with
  | zero =>
    intro b hInv hle hfuel
    have hx : b.x = x0 + dx := by omega
    have hy := stInv_terminal hdx hInv hx
    have hx1 : b.x1 = x0 + dx := hInv.2.2.1
    have hoct : b.octant = t := hInv.2.2.2.1
    rw [inWalkF_cons (by omega), advance_fst, inWalkF_nil (by rw [advance_x, advance_x1]; omega)]
    simp [exWalkF, hx, hy, hoct]
  | succ n ih =>
    intro b hInv hle hfuel
    have hx1 : b.x1 = x0 + dx := hInv.2.2.1
    have hoct : b.octant = t := hInv.2.2.2.1
    by_cases hx : b.x = x0 + dx
    · have hy := stInv_terminal hdx hInv hx
      rw [inWalkF_cons (by omega), advance_fst,
        inWalkF_nil (by rw [advance_x, advance_x1]; omega),
        exWalkF_nil (by omega)]
      simp [hx, hy, hoct]
    · have hxlt : b.x < x0 + dx := by omega
      have hInv' := stInv_advance hdy hdydx hInv
      have hih := ih b.advance.2 hInv' (by rw [advance_x]; omega)
        (by rw [advance_x]; omega)
      rw [inWalkF_cons (by omega), exWalkF_cons (by omega), hih]
      simp

/-! ### More octant facts and derived top-level helpers -/

theorem from_to_cancel (s e q : Point) :
    (Octant.from_points s e).from_octant0 ((Octant.from_points s e).to_octant0 q) = q :=
  octant_roundtrip_aux _ (from_points_le_seven s e) q

theorem canonDx_nonneg (s e : Point) : 0 ≤ canonDx s e :=
  le_trans (canonDy_nonneg s e) (canonDy_le_canonDx s e)

theorem octant_step_adjacent (t : Octant) (ht : t ≤ 7) (x y y' : Int)
    (hy : y' = y ∨ y' = y + 1) :
    adjacent (t.from_octant0 (x, y)) (t.from_octant0 (x + 1, y')) := by
  rcases hy with h | h <;> subst h <;> interval_cases t <;>
    simp [Octant.from_octant0, adjacent, Prod.ext_iff, abs_le]

theorem octant_box_map (t : Octant) (ht : t ≤ 7) (p a b : Point)
    (h : inBox p a b) : inBox (t.from_octant0 p) (t.from_octant0 a) (t.from_octant0 b) := by
  interval_cases t <;> simp_all [Octant.from_octant0, inBox]

theorem iterAdvance_octant (n : Nat) :
    ∀ b : Bresenham, (Bresenham.iterAdvance n b).octant = b.octant := by
  induction n with
  | zero => intro b; rfl
  | succ n ih =>
    intro b
    rw [Bresenham.iterAdvance, ih, advance_octant]

theorem exclusive_self (p : Point) : exclusive_walk p p = [] := by
  have hc : canonEnd p p = canonStart p p := rfl
  unfold exclusive_walk
  rw [new_eq]
  dsimp only
  rw [hc]
  simp [exWalkF]

theorem inclusive_self (p : Point) : inclusive_walk p p = [p] := by
  have hc : canonEnd p p = canonStart p p := rfl
  unfold inclusive_walk
  rw [new_eq]
  dsimp only
  rw [hc]
  simp only [sub_self, Int.toNat_zero, Nat.zero_add]
  rw [inWalkF_cons (le_refl _)]
  rw [advance_fst]
  dsimp only
  rw [inWalkF_zero]
  rw [Prod.mk.eta]
  rw [show canonStart p p = (Octant.from_points p p).to_octant0 p from rfl]
  rw [from_to_cancel]

theorem inclusive_eq_append (s e : Point) :
    inclusive_walk s e = exclusive_walk s e ++ [e] := by
  by_cases hne : s = e
  · subst hne
    rw [exclusive_self, inclusive_self]
    rfl
  · have hInv := stInv_new s e hne
    have hdx := canonDx_pos s e hne
    have hdy := canonDy_nonneg s e
    have hdydx := canonDy_le_canonDx s e
    have hmain := inWalkF_eq_exWalkF_append hdx hdy hdydx
      ((Bresenham.new s e).x1 - (Bresenham.new s e).x).toNat (Bresenham.new s e)
      hInv ?_ ?_
    · unfold inclusive_walk exclusive_walk
      rw [hmain]
      have hend : ((canonStart s e).1 + canonDx s e, (canonStart s e).2 + canonDy s e) =
          (Octant.to_octant0 (Octant.from_points s e) e) := by
        unfold canonDx canonDy canonStart canonEnd
        simp
      rw [hend]
      rw [show (Octant.to_octant0 (Octant.from_points s e) e) =
        ((Octant.from_points s e).to_octant0 e) from rfl]
      rw [from_to_cancel]
    · rw [new_eq]
      dsimp only
      omega
    · rw [new_eq]
      dsimp only
      unfold canonDx
      omega

theorem inclusive_head (s e : Point) : (inclusive_walk s e).head? = some s := by
  have hxle : (Bresenham.new s e).x ≤ (Bresenham.new s e).x1 := by
    rw [new_eq]
    dsimp only
    have := canonDx_nonneg s e
    unfold canonDx at this
    omega
  unfold inclusive_walk
  rw [inWalkF_head hxle]
  rw [show (Bresenham.new s e).octant = Octant.from_points s e from rfl,
    show (Bresenham.new s e).x = (canonStart s e).1 from rfl,
    show (Bresenham.new s e).y = (canonStart s e).2 from rfl]
  rw [Prod.mk.eta]
  rw [show canonStart s e = (Octant.from_points s e).to_octant0 s from rfl]
  rw [from_to_cancel]

/-! ### Adjacency chain and bounding-box membership along a walk -/

theorem inWalkF_chain {x0 y0 dx dy : Int} {t : Octant}
    (hdx : 1 ≤ dx) (hdy : 0 ≤ dy) (hdydx : dy ≤ dx) (ht : t ≤ 7) :
    ∀ n : Nat, ∀ b : Bresenham, StInv x0 y0 dx dy t b →
      b.x ≤ x0 + dx → (x0 + dx - b.x).toNat ≤ n →
      List.Chain' adjacent (inWalkF (n + 1) ⟨b⟩) := by
  intro n
  induction n with
  | zero =>
    intro b hInv hle hfuel
    have hx1 : b.x1 = x0 + dx := hInv.2.2.1
    rw [inWalkF_cons (by omega), inWalkF_nil (by rw [advance_x, advance_x1]; omega)]
    exact List.chain'_singleton _
  | succ n ih =>
    intro b hInv hle hfuel
    have hx1 : b.x1 = x0 + dx := hInv.2.2.1
    have hoct : b.octant = t := hInv.2.2.2.1
    by_cases hx : b.x = x0 + dx
    · rw [inWalkF_cons (by omega), inWalkF_nil (by rw [advance_x, advance_x1]; omega)]
      exact List.chain'_singleton _
    · have hInv' := stInv_advance hdy hdydx hInv
      have hchain := ih b.advance.2 hInv' (by rw [advance_x]; omega)
        (by rw [advance_x]; omega)
      rw [inWalkF_cons (by omega)]
      rw [List.chain'_cons']
      refine ⟨?_, hchain⟩
      intro q hq
      rw [inWalkF_head (by rw [advance_x]; rw [advance_x1]; omega)] at hq
      simp only [Option.mem_def, Option.some.injEq] at hq
      subst hq
      rw [advance_fst, hoct, advance_octant, hoct, advance_x]
      exact octant_step_adjacent t ht b.x b.y _ (advance_y_cases b)

theorem inWalkF_mem {x0 y0 dx dy : Int} {t : Octant}
    (hdx : 1 ≤ dx) (hdy : 0 ≤ dy) (hdydx : dy ≤ dx) :
    ∀ n : Nat, ∀ b : Bresenham, StInv x0 y0 dx dy t b → b.x ≤ x0 + dx →
      ∀ p ∈ inWalkF n ⟨b⟩, ∃ cx cy : Int, p = t.from_octant0 (cx, cy) ∧
        x0 ≤ cx ∧ cx ≤ x0 + dx ∧ y0 ≤ cy ∧ cy ≤ y0 + dy := by
  intro n
  induction n with
  | zero =>
    intro b _ _ p hp
    rw [inWalkF_zero] at hp
    exact absurd hp (List.not_mem_nil p)
  | succ n ih =>
    intro b hInv hle p hp
    have hx1 : b.x1 = x0 + dx := hInv.2.2.1
    have hoct : b.octant = t := hInv.2.2.2.1
    rw [inWalkF_cons (by omega)] at hp
    rcases List.mem_cons.mp hp with h | h
    · subst h
      rw [advance_fst, hoct]
      have hyb := stInv_y_bounds hdx hdy hInv hle
      exact ⟨b.x, b.y, rfl, hInv.2.2.2.2.1, hle, hyb.1, hyb.2⟩
    · by_cases hx : b.x = x0 + dx
      · rw [inWalkF_nil (by rw [advance_x, advance_x1]; omega)] at h
        exact absurd h (List.not_mem_nil p)
      · have hInv' := stInv_advance hdy hdydx hInv
        exact ih b.advance.2 hInv' (by rw [advance_x]; omega) p h

theorem exclusive_length (s e : Point) :
    (exclusive_walk s e).length = max (e.1 - s.1).natAbs (e.2 - s.2).natAbs := by
  unfold exclusive_walk
  rw [exWalkF_length _ _ (le_refl _)]
  rw [show (Bresenham.new s e).x1 - (Bresenham.new s e).x = canonDx s e from rfl]
  exact canonDx_toNat s e

theorem inclusive_length (s e : Point) :
    (inclusive_walk s e).length = max (e.1 - s.1).natAbs (e.2 - s.2).natAbs + 1 := by
  rw [inclusive_eq_append, List.length_append, exclusive_length]
  rfl

/-! ### Claims -/

/-- C1, counterexample: the claim that the inclusive walks `A → B` and
`B → A` always visit the same set of lattice points is false: for
`A = (0, 1)`, `B = (6, 4)` the forward walk visits `(1, 1)` but the
backward walk does not. -/
theorem c1_counterexample :
    ¬ (∀ p : Point, p ∈ inclusive_walk (0, 1) (6, 4) ↔
        p ∈ inclusive_walk (6, 4) (0, 1)) := by
  intro h
  have h1 : ((1 : Int), (1 : Int)) ∈ inclusive_walk (0, 1) (6, 4) := by decide
  exact absurd ((h (1, 1)).mp h1) (by decide)

/-- C1, amended: the two opposite inclusive walks need not agree as point
sets, but both contain the two endpoints `A` and `B`, and they have the
same number of points. -/
theorem c1_endpoints_and_length (A B : Point) :
    A ∈ inclusive_walk A B ∧ B ∈ inclusive_walk A B ∧
    A ∈ inclusive_walk B A ∧ B ∈ inclusive_walk B A ∧
    (inclusive_walk A B).length = (inclusive_walk B A).length := by
  refine ⟨?_, ?_, ?_, ?_, ?_⟩
  · exact List.mem_of_mem_head? (by rw [inclusive_head]; rfl)
  · rw [inclusive_eq_append]
    exact List.mem_append_right _ (List.mem_singleton.mpr rfl)
  · rw [inclusive_eq_append]
    exact List.mem_append_right _ (List.mem_singleton.mpr rfl)
  · exact List.mem_of_mem_head? (by rw [inclusive_head]; rfl)
  · rw [inclusive_length, inclusive_length]
    have h1 : (B.1 - A.1).natAbs = (A.1 - B.1).natAbs := by omega
    have h2 : (B.2 - A.2).natAbs = (A.2 - B.2).natAbs := by omega
    rw [h1, h2]

/-- C2: for every point `P`, the exclusive walk from `P` to `P` is empty
and the inclusive walk from `P` to `P` is exactly `[P]`. -/
theorem c2_degenerate_walks (p : Point) :
    exclusive_walk p p = [] ∧ inclusive_walk p p = [p] :=
  ⟨exclusive_self p, inclusive_self p⟩

/-- C3: the inclusive walk is the exclusive walk with `end` appended as one
extra final element; in particular it starts at `start` and ends at `end`. -/
theorem c3_inclusive_eq_exclusive_append (s e : Point) :
    inclusive_walk s e = exclusive_walk s e ++ [e] ∧
    (inclusive_walk s e).head? = some s ∧
    (inclusive_walk s e).getLast? = some e := by
  refine ⟨inclusive_eq_append s e, inclusive_head s e, ?_⟩
  rw [inclusive_eq_append, List.getLast?_append_cons]
  rfl

/-- C4: for every octant tag in `0..7` and every point `P`,
`from_octant0 (to_octant0 P) = P`. -/
theorem c4_octant_roundtrip (t : Octant) (ht : t ≤ 7) (p : Point) :
    t.from_octant0 (t.to_octant0 p) = p :=
  octant_roundtrip_aux t ht p

/-- C4, witness: the round trip at tag 5 and point `(3, -4)`. -/
theorem c4_octant_roundtrip_witness :
    (5 : Octant) ≤ 7 ∧
      Octant.from_octant0 5 (Octant.to_octant0 5 (3, -4)) = ((3 : Int), (-4 : Int)) :=
  ⟨by decide, c4_octant_roundtrip 5 (by decide) (3, -4)⟩

/-- C5: the exclusive walk yields exactly
`max |end.x - start.x| |end.y - start.y|` points. -/
theorem c5_exclusive_walk_length (s e : Point) :
    (exclusive_walk s e).length = max (e.1 - s.1).natAbs (e.2 - s.2).natAbs :=
  exclusive_length s e

/-- C6: the canonical deltas computed at construction satisfy
`0 ≤ dy ≤ dx` (hence `dx ≥ 0`), and the octant tag lies in `0..7`. -/
theorem c6_canonical_deltas_invariant (s e : Point) :
    0 ≤ (Bresenham.new s e).dx ∧ 0 ≤ (Bresenham.new s e).dy ∧
    (Bresenham.new s e).dy ≤ (Bresenham.new s e).dx ∧
    Octant.from_points s e ≤ 7 := by
  refine ⟨?_, ?_, ?_, from_points_le_seven s e⟩
  · exact canonDx_nonneg s e
  · exact canonDy_nonneg s e
  · exact canonDy_le_canonDx s e

/-- C7: the worked example: the exclusive walk from `(0,1)` to `(6,4)` and
its inclusive counterpart. -/
theorem c7_worked_example :
    exclusive_walk (0, 1) (6, 4) =
      [(0, 1), (1, 1), (2, 2), (3, 2), (4, 3), (5, 3)] ∧
    inclusive_walk (0, 1) (6, 4) =
      [(0, 1), (1, 1), (2, 2), (3, 2), (4, 3), (5, 3), (6, 4)] := by
  constructor <;> decide

/-- C8: the octant tag stored in a walker built by the public constructor
stays at most 7 through any number of `advance` calls, so the
`unreachable!` arms of the two transforms are never taken. -/
theorem c8_octant_le_seven (s e : Point) (n : Nat) :
    (Bresenham.iterAdvance n (Bresenham.new s e)).octant ≤ 7 := by
  rw [iterAdvance_octant]
  exact from_points_le_seven s e

/-- C9: consecutive points of the inclusive walk differ by at most one in
each coordinate and are distinct (the path is 8-connected, no repeats). -/
theorem c9_inclusive_adjacent_chain (s e : Point) :
    List.Chain' adjacent (inclusive_walk s e) := by
  by_cases hne : s = e
  · subst hne
    rw [inclusive_self]
    exact List.chain'_singleton _
  · have hInv := stInv_new s e hne
    have h := inWalkF_chain (canonDx_pos s e hne) (canonDy_nonneg s e)
      (canonDy_le_canonDx s e) (from_points_le_seven s e)
      ((Bresenham.new s e).x1 - (Bresenham.new s e).x).toNat (Bresenham.new s e)
      hInv ?_ ?_
    · exact h
    · rw [new_eq]
      dsimp only
      have := canonDx_pos s e hne
      unfold canonDx at this ⊢
      omega
    · rw [new_eq]
      dsimp only
      unfold canonDx
      omega

/-- C10: every point yielded by the exclusive or the inclusive walk lies
in the axis-aligned bounding box spanned by `start` and `end`. -/
theorem c10_walk_in_bbox (s e : Point) :
    (∀ p ∈ exclusive_walk s e, inBox p s e) ∧
    (∀ p ∈ inclusive_walk s e, inBox p s e) := by
  have hincl : ∀ p ∈ inclusive_walk s e, inBox p s e := by
    by_cases hne : s = e
    · subst hne
      rw [inclusive_self]
      intro p hp
      rw [List.mem_singleton] at hp
      subst hp
      unfold inBox
      refine ⟨?_, ?_, ?_, ?_⟩ <;> omega
    · intro p hp
      have hInv := stInv_new s e hne
      have hmem := inWalkF_mem (canonDx_pos s e hne) (canonDy_nonneg s e)
        (canonDy_le_canonDx s e)
        (((Bresenham.new s e).x1 - (Bresenham.new s e).x).toNat + 1)
        (Bresenham.new s e) hInv ?_ p hp
      · obtain ⟨cx, cy, hpe, hx1, hx2, hy1, hy2⟩ := hmem
        subst hpe
        have hbox : inBox (cx, cy) (canonStart s e) (canonEnd s e) := by
          have he1 : (canonEnd s e).1 - (canonStart s e).1 = canonDx s e := rfl
          have he2 : (canonEnd s e).2 - (canonStart s e).2 = canonDy s e := rfl
          unfold inBox
          refine ⟨?_, ?_, ?_, ?_⟩ <;> omega
        have hmap := octant_box_map (Octant.from_points s e) (from_points_le_seven s e)
          (cx, cy) (canonStart s e) (canonEnd s e) hbox
        rw [show canonStart s e = (Octant.from_points s e).to_octant0 s from rfl,
          show canonEnd s e = (Octant.from_points s e).to_octant0 e from rfl,
          from_to_cancel, from_to_cancel] at hmap
        exact hmap
      · rw [new_eq]
        dsimp only
        have := canonDx_pos s e hne
        unfold canonDx at this ⊢
        omega
  refine ⟨?_, hincl⟩
  intro p hp
  refine hincl p ?_
  rw [inclusive_eq_append]
  exact List.mem_append_left _ hp

/-- C10, witness: the point `(2, 2)` of the exclusive walk from `(0,1)`
to `(6,4)` lies in the bounding box of the endpoints. -/
theorem c10_walk_in_bbox_witness : inBox (2, 2) (0, 1) (6, 4) :=
  (c10_walk_in_bbox (0, 1) (6, 4)).1 (2, 2) (by decide)
